import Mathlib

/-!
Verification of the correlation / staleness-classification core of the
authorized-keys audit tool (src/usecases/oldkeys.rs).

Shallow embedding conventions:
- Timestamps (chrono NaiveDateTime) are modelled as whole seconds on an
  unbounded integer timeline; NaiveDateTime is totally ordered and its
  subtraction (signed_duration_since) is exact integer subtraction of the
  second counts. Duration::num_days() is truncating (toward-zero) division
  of the second count by 86400, matching Rust i64 division (Int.tdiv).
- HashMap<String, KeyLoginAttempt> is modelled extensionally as the function
  String -> Option KeyLoginAttempt; insert, get and contains_key are the
  evident operations, and Rust HashMap equality is mapping equality, which
  for this model is function equality.
- The external collaborators PublicKey::parse plus PublicKey::fingerprint
  (openssh_keys) are modelled as one abstract parameter
  fingerprint_of : AuthorizedKey -> Option String: the Display rendering of
  an AuthorizedKey is deterministic in its fields, so the composition of
  rendering, parsing and fingerprinting is a function of the record; a parse
  failure is the none case.
- Local::now().naive_local() is an input parameter now : Int.
- The record types KeyLoginAttempt (crate ssh_auth_log),
  PublicKeyFingerprint (crate ssh_fingerprint_rs) and AuthorizedKey (crate
  authorized_keys) carry the fields with which the repository constructs
  them; their derived structural equality is Lean equality.
-/

namespace OldKeys

/-- Record of one successful key login (ssh_auth_log::KeyLoginAttempt),
fields as constructed in tests_common/mod.rs; timestamp in whole seconds. -/
structure KeyLoginAttempt where
  timestamp : Int
  key_type : String
  fingerprint_type : String
  fingerprint : String
  username : String
  key_offset : Nat
deriving DecidableEq, Repr

/-- Fingerprint of one authorized_keys entry
(ssh_fingerprint_rs::PublicKeyFingerprint), fields as constructed in
tests_common/mod.rs. -/
structure PublicKeyFingerprint where
  key_length : Nat
  fingerprint_type : String
  fingerprint : String
  key_id : String
  key_type : String
deriving DecidableEq, Repr

/-- One entry of the authorized_keys file
(authorized_keys::authorizedkeys::AuthorizedKey), fields as constructed in
the tests of oldkeys.rs. -/
structure AuthorizedKey where
  key_type : String
  key : String
  id : String
  row_index : Nat
deriving DecidableEq, Repr

/-- Extensional model of HashMap String KeyLoginAttempt. -/
abbrev AttemptsMap : Type := String → Option KeyLoginAttempt

/-- Model of HashMap::new(). -/
def AttemptsMap.empty : AttemptsMap := fun _ => none

/-- Model of HashMap::insert (replacing any previous value at the key). -/
def AttemptsMap.insert (m : AttemptsMap) (k : String) (v : KeyLoginAttempt) :
    AttemptsMap :=
  fun q => if q = k then some v else m q

/-- Model of HashMap::get. -/
def AttemptsMap.get (m : AttemptsMap) (k : String) : Option KeyLoginAttempt :=
  m k

/-- Model of HashMap::contains_key. -/
def AttemptsMap.containsKey (m : AttemptsMap) (k : String) : Bool :=
  (m k).isSome

/-- Body of the for loop of get_attempts_map (oldkeys.rs lines 44-70): one
login attempt folded into the map. -/
def attemptsMapStep (actual_fingerprints : List PublicKeyFingerprint)
    (attempts_map : AttemptsMap) (login_attempt : KeyLoginAttempt) :
    AttemptsMap :=
  let fingerprint_found := actual_fingerprints.find?
    (fun af => af.fingerprint == login_attempt.fingerprint)
  if fingerprint_found.isSome then
    let key := login_attempt.fingerprint
    if attempts_map.containsKey key then
      match attempts_map.get key with
      | some saved_login_attempt =>
        if saved_login_attempt.timestamp < login_attempt.timestamp then
          attempts_map.insert key login_attempt
        else
          attempts_map
      | none => attempts_map
    else
      attempts_map.insert key login_attempt
  else
    attempts_map

/-- Embedding of get_attempts_map (oldkeys.rs lines 39-72): collects the
latest attempt per fingerprint, gated by the fingerprint universe. -/
def get_attempts_map (attempts : List KeyLoginAttempt)
    (actual_fingerprints : List PublicKeyFingerprint) : AttemptsMap :=
  attempts.foldl (attemptsMapStep actual_fingerprints) AttemptsMap.empty

/-- Universe gate of get_attempts_map: the find over actual_fingerprints
succeeds for this fingerprint string. -/
def gatePass (actual_fingerprints : List PublicKeyFingerprint)
    (fp : String) : Bool :=
  (actual_fingerprints.find? (fun af => af.fingerprint == fp)).isSome

/-- Model of chrono Duration::num_days() on a whole-second duration: Rust
i64 division truncates toward zero, which is Int.tdiv. -/
def num_days (duration_secs : Int) : Int :=
  Int.tdiv duration_secs 86400

/-- Model of the Rust cast days_threshold as i64 on a u64 value
(oldkeys.rs line 80): values below 2 to the 63 are preserved, larger u64
values wrap to negative i64 values. -/
def u64_as_i64 (n : Nat) : Int :=
  if n % 2 ^ 64 < 2 ^ 63 then ((n % 2 ^ 64 : Nat) : Int)
  else ((n % 2 ^ 64 : Nat) : Int) - 2 ^ 64

/-- Body of the for loop of get_key_candidates_for_removal (oldkeys.rs
lines 89-118): one authorized key classified against the attempts map. -/
def candidateStep (fingerprint_of : AuthorizedKey → Option String)
    (now : Int) (attempts_map : AttemptsMap) (key_days_threshold : Int)
    (candidates_for_removal : List AuthorizedKey)
    (authorized_key : AuthorizedKey) : List AuthorizedKey :=
  match fingerprint_of authorized_key with
  | some actual_fingerprint =>
    if attempts_map.containsKey actual_fingerprint then
      match attempts_map.get actual_fingerprint with
      | some latest_login_attempt =>
        let since := now - latest_login_attempt.timestamp
        if num_days since > key_days_threshold then
          if authorized_key ∈ candidates_for_removal then
            candidates_for_removal
          else
            candidates_for_removal ++ [authorized_key]
        else
          candidates_for_removal
      | none => candidates_for_removal ++ [authorized_key]
    else
      candidates_for_removal
  | none => candidates_for_removal

/-- Embedding of get_key_candidates_for_removal (oldkeys.rs lines 75-121).
The parameter fingerprint_of models PublicKey::parse of the Display
rendering followed by fingerprint computation; now models
Local::now().naive_local(); days_threshold is the u64 argument, cast to
i64 as in the source. -/
def get_key_candidates_for_removal
    (fingerprint_of : AuthorizedKey → Option String) (now : Int)
    (authorized_keys : List AuthorizedKey) (attempts_map : AttemptsMap)
    (days_threshold : Nat) : List AuthorizedKey :=
  authorized_keys.foldl
    (candidateStep fingerprint_of now attempts_map (u64_as_i64 days_threshold))
    []

/-- Modelled from the spec: the calendar day of a naive local timestamp.
The spec phrase that under threshold 0 any use not today is stale speaks of
calendar days; on the whole-second naive timeline (each naive day has
exactly 86400 seconds) the calendar day index is the floor division of the
second count by 86400. The source never computes calendar days; this
definition only states that spec phrase. -/
def calendarDay (t : Int) : Int :=
  Int.ediv t 86400

/-- Decidable staleness condition of one authorized key, read off the
classifier: its fingerprint resolves, has an entry in the map, and the
truncated day count of the elapsed time exceeds the threshold. -/
def isStale (fingerprint_of : AuthorizedKey → Option String) (now : Int)
    (attempts_map : AttemptsMap) (key_days_threshold : Int)
    (authorized_key : AuthorizedKey) : Bool :=
  match fingerprint_of authorized_key with
  | some fp =>
    match attempts_map fp with
    | some la => decide (num_days (now - la.timestamp) > key_days_threshold)
    | none => false
  | none => false

/-- Inner reduction step of the map at one key: a fresh attempt against an
optional stored attempt, replacing only on strictly greater timestamp. -/
def maxStep (a : KeyLoginAttempt) (acc : Option KeyLoginAttempt) :
    Option KeyLoginAttempt :=
  match acc with
  | none => some a
  | some s => if s.timestamp < a.timestamp then some a else some s

@[simp] theorem maxStep_none (a : KeyLoginAttempt) : maxStep a none = some a :=
  rfl

@[simp] theorem maxStep_some (a s : KeyLoginAttempt) :
    maxStep a (some s) =
      if s.timestamp < a.timestamp then some a else some s :=
  rfl

theorem attemptsMapStep_apply (fps : List PublicKeyFingerprint)
    (m : AttemptsMap) (a : KeyLoginAttempt) (k : String) :
    attemptsMapStep fps m a k =
      if gatePass fps a.fingerprint = true ∧ a.fingerprint = k then
        maxStep a (m k)
      else m k := by
  simp only [attemptsMapStep, AttemptsMap.containsKey, AttemptsMap.get,
    AttemptsMap.insert, gatePass]
  by_cases hg :
      (List.find? (fun af => af.fingerprint == a.fingerprint) fps).isSome = true
  · simp only [hg, if_true, true_and]
    by_cases hk : a.fingerprint = k
    · subst hk
      cases hm : m a.fingerprint with
      | none => simp [hm, AttemptsMap.insert]
      | some s =>
        by_cases hts : s.timestamp < a.timestamp
        · simp [hm, hts, AttemptsMap.insert]
        · simp [hm, hts]
    · cases hm : m a.fingerprint with
      | none => simp [hm, hk, AttemptsMap.insert, Ne.symm hk]
      | some s =>
        by_cases hts : s.timestamp < a.timestamp
        · simp [hm, hts, hk, AttemptsMap.insert, Ne.symm hk]
        · simp [hm, hts, hk]
  · simp [hg]

/-- Reduction of a list of attempts onto one key: the accumulator view of
get_attempts_map at a single fingerprint string. -/
def latestFold (fps : List PublicKeyFingerprint) (k : String)
    (acc : Option KeyLoginAttempt) :
    List KeyLoginAttempt → Option KeyLoginAttempt
  | [] => acc
  | a :: rest =>
    latestFold fps k
      (if gatePass fps a.fingerprint = true ∧ a.fingerprint = k then
        maxStep a acc
      else acc) rest

theorem foldl_attemptsMapStep_apply (fps : List PublicKeyFingerprint)
    (l : List KeyLoginAttempt) (m : AttemptsMap) (k : String) :
    List.foldl (attemptsMapStep fps) m l k = latestFold fps k (m k) l := by
  induction l generalizing m with
  | nil => rfl
  | cons a rest ih =>
    simp only [List.foldl_cons, latestFold, ih (attemptsMapStep fps m a),
      attemptsMapStep_apply]

theorem get_attempts_map_apply (attempts : List KeyLoginAttempt)
    (fps : List PublicKeyFingerprint) (k : String) :
    get_attempts_map attempts fps k = latestFold fps k none attempts :=
  foldl_attemptsMapStep_apply fps attempts AttemptsMap.empty k

theorem latestFold_eq_some (fps : List PublicKeyFingerprint) (k : String)
    (l : List KeyLoginAttempt) (acc : Option KeyLoginAttempt)
    (A : KeyLoginAttempt) (h : latestFold fps k acc l = some A) :
    acc = some A ∨
      (A ∈ l ∧ A.fingerprint = k ∧ gatePass fps k = true) := by
  induction l generalizing acc with
  | nil => exact Or.inl h
  | cons a rest ih =>
    simp only [latestFold] at h
    rcases ih _ h with hacc | hmem
    · by_cases hc : gatePass fps a.fingerprint = true ∧ a.fingerprint = k
      · rw [if_pos hc] at hacc
        cases acc with
        | none =>
          simp only [maxStep_none, Option.some.injEq] at hacc
          subst hacc
          exact Or.inr ⟨List.mem_cons_self a rest, hc.2, hc.2 ▸ hc.1⟩
        | some s =>
          rw [maxStep_some] at hacc
          by_cases hts : s.timestamp < a.timestamp
          · rw [if_pos hts] at hacc
            simp only [Option.some.injEq] at hacc
            subst hacc
            exact Or.inr ⟨List.mem_cons_self a rest, hc.2, hc.2 ▸ hc.1⟩
          · rw [if_neg hts] at hacc
            exact Or.inl hacc
      · rw [if_neg hc] at hacc
        exact Or.inl hacc
    · exact Or.inr ⟨List.mem_cons_of_mem a hmem.1, hmem.2⟩

theorem latestFold_acc_le (fps : List PublicKeyFingerprint) (k : String)
    (l : List KeyLoginAttempt) (acc : Option KeyLoginAttempt)
    (A s : KeyLoginAttempt) (h : latestFold fps k acc l = some A)
    (hacc : acc = some s) : s.timestamp ≤ A.timestamp := by
  induction l generalizing acc s with
  | nil =>
    simp only [latestFold, hacc, Option.some.injEq] at h
    exact h ▸ le_refl _
  | cons a rest ih =>
    subst hacc
    simp only [latestFold] at h
    by_cases hc : gatePass fps a.fingerprint = true ∧ a.fingerprint = k
    · rw [if_pos hc, maxStep_some] at h
      by_cases hts : s.timestamp < a.timestamp
      · rw [if_pos hts] at h
        exact le_of_lt (lt_of_lt_of_le hts (ih _ a h rfl))
      · rw [if_neg hts] at h
        exact ih _ s h rfl
    · rw [if_neg hc] at h
      exact ih _ s h rfl

theorem latestFold_mem_le (fps : List PublicKeyFingerprint) (k : String)
    (l : List KeyLoginAttempt) (acc : Option KeyLoginAttempt)
    (A : KeyLoginAttempt) (h : latestFold fps k acc l = some A)
    (B : KeyLoginAttempt) (hB : B ∈ l) (hfp : B.fingerprint = k)
    (hg : gatePass fps B.fingerprint = true) :
    B.timestamp ≤ A.timestamp := by
  induction l generalizing acc with
  | nil => cases hB
  | cons a rest ih =>
    simp only [latestFold] at h
    rcases List.mem_cons.mp hB with hBa | hBrest
    · subst hBa
      rw [if_pos ⟨hg, hfp⟩] at h
      cases acc with
      | none =>
        rw [maxStep_none] at h
        exact latestFold_acc_le fps k rest _ A B h rfl
      | some s =>
        rw [maxStep_some] at h
        by_cases hts : s.timestamp < B.timestamp
        · rw [if_pos hts] at h
          exact latestFold_acc_le fps k rest _ A B h rfl
        · rw [if_neg hts] at h
          exact le_trans (not_lt.mp hts)
            (latestFold_acc_le fps k rest _ A s h rfl)
    · exact ih _ h hBrest

theorem latestFold_eq_none (fps : List PublicKeyFingerprint) (k : String)
    (l : List KeyLoginAttempt) (acc : Option KeyLoginAttempt) :
    latestFold fps k acc l = none ↔
      acc = none ∧
        ∀ B ∈ l, ¬(gatePass fps B.fingerprint = true ∧ B.fingerprint = k) := by
  induction l generalizing acc with
  | nil => simp [latestFold]
  | cons a rest ih =>
    simp only [latestFold, ih]
    constructor
    · rintro ⟨hacc, hrest⟩
      by_cases hc : gatePass fps a.fingerprint = true ∧ a.fingerprint = k
      · rw [if_pos hc] at hacc
        cases acc with
        | none => cases hacc
        | some s =>
          rw [maxStep_some] at hacc
          by_cases hts : s.timestamp < a.timestamp
          · rw [if_pos hts] at hacc; cases hacc
          · rw [if_neg hts] at hacc; cases hacc
      · rw [if_neg hc] at hacc
        refine ⟨hacc, fun B hB => ?_⟩
        rcases List.mem_cons.mp hB with h1 | h2
        · exact h1 ▸ hc
        · exact hrest B h2
    · rintro ⟨hacc, hall⟩
      refine ⟨?_, fun B hB => hall B (List.mem_cons_of_mem a hB)⟩
      rw [if_neg (hall a (List.mem_cons_self a rest))]
      exact hacc

theorem candidateStep_mem (f : AuthorizedKey → Option String) (now : Int)
    (m : AttemptsMap) (t : Int) (acc : List AuthorizedKey)
    (a ak : AuthorizedKey) :
    ak ∈ candidateStep f now m t acc a ↔
      ak ∈ acc ∨ (ak = a ∧ isStale f now m t a = true) := by
  simp only [candidateStep, isStale, AttemptsMap.containsKey, AttemptsMap.get]
  cases hf : f a with
  | none => simp
  | some fp =>
    cases hm : m fp with
    | none => simp [hm]
    | some la =>
      simp only [hm, Option.isSome_some, if_true]
      by_cases hd : num_days (now - la.timestamp) > t
      · by_cases hmem : a ∈ acc
        · simp only [hd, if_pos hmem, if_true, decide_eq_true_eq]
          constructor
          · intro h; exact Or.inl h
          · rintro (h | ⟨rfl, _⟩)
            · exact h
            · exact hmem
        · simp only [hd, if_neg hmem, if_true, decide_eq_true_eq,
            List.mem_append, List.mem_singleton]
          constructor
          · rintro (h | rfl)
            · exact Or.inl h
            · exact Or.inr ⟨rfl, trivial⟩
          · rintro (h | ⟨rfl, _⟩)
            · exact Or.inl h
            · exact Or.inr rfl
      · simp [hd]

theorem foldl_candidateStep_mem (f : AuthorizedKey → Option String)
    (now : Int) (m : AttemptsMap) (t : Int) (keys : List AuthorizedKey)
    (acc : List AuthorizedKey) (ak : AuthorizedKey) :
    ak ∈ List.foldl (candidateStep f now m t) acc keys ↔
      ak ∈ acc ∨ (ak ∈ keys ∧ isStale f now m t ak = true) := by
  induction keys generalizing acc with
  | nil => simp
  | cons a rest ih =>
    simp only [List.foldl_cons, ih, candidateStep_mem, List.mem_cons]
    constructor
    · rintro ((h | ⟨rfl, hs⟩) | ⟨hmem, hs⟩)
      · exact Or.inl h
      · exact Or.inr ⟨Or.inl rfl, hs⟩
      · exact Or.inr ⟨Or.inr hmem, hs⟩
    · rintro (h | ⟨rfl | hmem, hs⟩)
      · exact Or.inl (Or.inl h)
      · exact Or.inl (Or.inr ⟨rfl, hs⟩)
      · exact Or.inr ⟨hmem, hs⟩

theorem get_key_candidates_mem (f : AuthorizedKey → Option String)
    (now : Int) (keys : List AuthorizedKey) (m : AttemptsMap)
    (dt : Nat) (ak : AuthorizedKey) :
    ak ∈ get_key_candidates_for_removal f now keys m dt ↔
      ak ∈ keys ∧ isStale f now m (u64_as_i64 dt) ak = true := by
  simp [get_key_candidates_for_removal, foldl_candidateStep_mem]

theorem candidateStep_nodup (f : AuthorizedKey → Option String) (now : Int)
    (m : AttemptsMap) (t : Int) (acc : List AuthorizedKey)
    (a : AuthorizedKey) (h : acc.Nodup) :
    (candidateStep f now m t acc a).Nodup := by
  simp only [candidateStep]
  cases hf : f a with
  | none => exact h
  | some fp =>
    cases hm : m fp with
    | none =>
      simp only [AttemptsMap.containsKey, AttemptsMap.get, hm,
        Option.isSome_none]
      simpa using h
    | some la =>
      simp only [AttemptsMap.containsKey, AttemptsMap.get, hm,
        Option.isSome_some, if_true]
      by_cases hd : num_days (now - la.timestamp) > t
      · rw [if_pos hd]
        by_cases hmem : a ∈ acc
        · rw [if_pos hmem]; exact h
        · rw [if_neg hmem]
          simp [List.nodup_append, h, hmem]
      · rw [if_neg hd]; exact h

theorem foldl_candidateStep_nodup (f : AuthorizedKey → Option String)
    (now : Int) (m : AttemptsMap) (t : Int) (keys : List AuthorizedKey)
    (acc : List AuthorizedKey) (h : acc.Nodup) :
    (List.foldl (candidateStep f now m t) acc keys).Nodup := by
  induction keys generalizing acc with
  | nil => exact h
  | cons a rest ih =>
    exact ih _ (candidateStep_nodup f now m t acc a h)

/-- Re-implementation of the classifier loop body with a single map lookup,
with no fallback branch: the form the design notes ask for. A key whose
fingerprint is absent from the map is skipped outright. -/
def candidateStepSingleLookup (fingerprint_of : AuthorizedKey → Option String)
    (now : Int) (attempts_map : AttemptsMap) (key_days_threshold : Int)
    (candidates_for_removal : List AuthorizedKey)
    (authorized_key : AuthorizedKey) : List AuthorizedKey :=
  match fingerprint_of authorized_key with
  | some actual_fingerprint =>
    match attempts_map.get actual_fingerprint with
    | some latest_login_attempt =>
      if num_days (now - latest_login_attempt.timestamp) > key_days_threshold then
        if authorized_key ∈ candidates_for_removal then
          candidates_for_removal
        else
          candidates_for_removal ++ [authorized_key]
      else
        candidates_for_removal
    | none => candidates_for_removal
  | none => candidates_for_removal

/-- Classifier built from the single-lookup loop body, with the fallback
push of the source removed. -/
def get_key_candidates_single_lookup
    (fingerprint_of : AuthorizedKey → Option String) (now : Int)
    (authorized_keys : List AuthorizedKey) (attempts_map : AttemptsMap)
    (days_threshold : Nat) : List AuthorizedKey :=
  authorized_keys.foldl
    (candidateStepSingleLookup fingerprint_of now attempts_map
      (u64_as_i64 days_threshold))
    []

theorem candidateStep_eq_single_lookup (f : AuthorizedKey → Option String)
    (now : Int) (m : AttemptsMap) (t : Int) (acc : List AuthorizedKey)
    (a : AuthorizedKey) :
    candidateStep f now m t acc a = candidateStepSingleLookup f now m t acc a := by
  simp only [candidateStep, candidateStepSingleLookup]
  cases hf : f a with
  | none => rfl
  | some fp =>
    cases hm : m fp with
    | none =>
      simp [AttemptsMap.containsKey, AttemptsMap.get, hm]
    | some la =>
      simp [AttemptsMap.containsKey, AttemptsMap.get, hm]

theorem u64_as_i64_of_lt (n : Nat) (h : n < 2 ^ 63) :
    u64_as_i64 n = (n : Int) := by
  unfold u64_as_i64
  have h64 : n % 2 ^ 64 = n := Nat.mod_eq_of_lt (by omega)
  rw [h64, if_pos h]

theorem num_days_pos_iff (x : Int) : 0 < num_days x ↔ 86400 ≤ x := by
  unfold num_days
  by_cases hx : 0 ≤ x
  · rw [Int.tdiv_eq_ediv hx (by norm_num)]
    omega
  · have h1 : Int.tdiv x 86400 ≤ 0 := by
      have hneg : (0 : Int) ≤ -x := by omega
      have h2 := Int.tdiv_nonneg hneg (by norm_num : (0 : Int) ≤ 86400)
      rw [Int.neg_tdiv] at h2
      omega
    constructor
    · intro h; omega
    · intro h; omega

/-- Concrete login attempt used by witnesses and counterexamples. -/
def sampleAttempt (ts : Int) (fp u : String) : KeyLoginAttempt :=
  ⟨ts, "rsa", "SHA256", fp, u, 0⟩

/-- Concrete universe fingerprint used by witnesses and counterexamples. -/
def sampleUniverseFp (fp : String) : PublicKeyFingerprint :=
  ⟨2048, "SHA256", fp, "a@b.com", "RSA"⟩

/-- Concrete authorized key used by witnesses and counterexamples. -/
def sampleKey : AuthorizedKey :=
  ⟨"ssh-rsa", "AAAA", "id1", 0⟩

/-- Concrete fingerprint computation mapping every key to one string. -/
def sampleFpOf : AuthorizedKey → Option String :=
  fun _ => some "SHA256:k1"

/-- Concrete attempts map holding one entry at the sample fingerprint. -/
def sampleMapAt (ts : Int) : AttemptsMap :=
  fun s => if s = "SHA256:k1" then some (sampleAttempt ts "SHA256:k1" "user")
    else none

/-- C1: for every fingerprint F present in the map built by
get_attempts_map, the stored attempt is an input attempt with fingerprint F
passing the universe gate whose timestamp is maximal among all gated input
attempts with fingerprint F; and one fold step replaces a stored entry only
when the incoming timestamp is strictly greater, in which case the incoming
attempt is stored. -/
theorem c1_latest_wins :
    (∀ (attempts : List KeyLoginAttempt) (fps : List PublicKeyFingerprint)
        (F : String) (A : KeyLoginAttempt),
      get_attempts_map attempts fps F = some A →
        A ∈ attempts ∧ A.fingerprint = F ∧ gatePass fps F = true ∧
          ∀ B ∈ attempts, B.fingerprint = F →
            gatePass fps B.fingerprint = true → B.timestamp ≤ A.timestamp) ∧
    (∀ (fps : List PublicKeyFingerprint) (m : AttemptsMap)
        (a : KeyLoginAttempt) (k : String) (s : KeyLoginAttempt),
      m k = some s → attemptsMapStep fps m a k ≠ some s →
        s.timestamp < a.timestamp ∧ k = a.fingerprint ∧
          attemptsMapStep fps m a k = some a) := by
  constructor
  · intro attempts fps F A h
    rw [get_attempts_map_apply] at h
    rcases latestFold_eq_some fps F attempts none A h with hacc | ⟨hmem, hfp, hg⟩
    · cases hacc
    · exact ⟨hmem, hfp, hg, fun B hB hBfp hBg =>
        latestFold_mem_le fps F attempts none A h B hB hBfp hBg⟩
  · intro fps m a k s hs hne
    rw [attemptsMapStep_apply] at hne ⊢
    by_cases hc : gatePass fps a.fingerprint = true ∧ a.fingerprint = k
    · rw [if_pos hc, hs, maxStep_some] at hne ⊢
      by_cases hts : s.timestamp < a.timestamp
      · rw [if_pos hts]
        exact ⟨hts, hc.2.symm, rfl⟩
      · rw [if_neg hts] at hne
        exact absurd rfl hne
    · rw [if_neg hc, hs] at hne
      exact absurd rfl hne

/-- Witness for C1 at a concrete input: two attempts for fingerprint f with
timestamps 3 and 5; the map stores the attempt with timestamp 5 and it is
maximal. -/
theorem c1_latest_wins_witness :
    sampleAttempt 5 "f" "u" ∈
        [sampleAttempt 3 "f" "u", sampleAttempt 5 "f" "u"] ∧
      (sampleAttempt 5 "f" "u").fingerprint = "f" ∧
      gatePass [sampleUniverseFp "f"] "f" = true ∧
      ∀ B ∈ [sampleAttempt 3 "f" "u", sampleAttempt 5 "f" "u"],
        B.fingerprint = "f" → gatePass [sampleUniverseFp "f"] B.fingerprint = true →
          B.timestamp ≤ (sampleAttempt 5 "f" "u").timestamp :=
  c1_latest_wins.1 [sampleAttempt 3 "f" "u", sampleAttempt 5 "f" "u"]
    [sampleUniverseFp "f"] "f" (sampleAttempt 5 "f" "u") (by decide)

/-- C2 counterexample: two attempts with the same fingerprint and the same
timestamp but different usernames; swapping the input order changes the
stored record, so the maps are not equal although the inputs are
permutations of each other. -/
theorem c2_order_independence_cex :
    List.Perm
        [sampleAttempt 0 "f" "u1", sampleAttempt 0 "f" "u2"]
        [sampleAttempt 0 "f" "u2", sampleAttempt 0 "f" "u1"] ∧
      get_attempts_map [sampleAttempt 0 "f" "u1", sampleAttempt 0 "f" "u2"]
          [sampleUniverseFp "f"] ≠
        get_attempts_map [sampleAttempt 0 "f" "u2", sampleAttempt 0 "f" "u1"]
          [sampleUniverseFp "f"] := by
  constructor
  · decide
  · intro h
    have e : (some (sampleAttempt 0 "f" "u1") : Option KeyLoginAttempt) =
        some (sampleAttempt 0 "f" "u2") := by
      calc
        (some (sampleAttempt 0 "f" "u1") : Option KeyLoginAttempt) =
            get_attempts_map
              [sampleAttempt 0 "f" "u1", sampleAttempt 0 "f" "u2"]
              [sampleUniverseFp "f"] "f" := by decide
        _ = get_attempts_map
              [sampleAttempt 0 "f" "u2", sampleAttempt 0 "f" "u1"]
              [sampleUniverseFp "f"] "f" := congrFun h "f"
        _ = some (sampleAttempt 0 "f" "u2") := by decide
    exact absurd e (by decide)

/-- C2 as amended: for inputs in which no two attempts sharing a
fingerprint carry the same timestamp, get_attempts_map is independent of
the input order: any permutation of the attempts yields the identical
map. -/
theorem c2_order_independence (fps : List PublicKeyFingerprint)
    (l1 l2 : List KeyLoginAttempt) (hperm : l1.Perm l2)
    (hdist : List.Pairwise
      (fun a b => a.fingerprint = b.fingerprint → a.timestamp ≠ b.timestamp)
      l1) :
    get_attempts_map l1 fps = get_attempts_map l2 fps := by
  funext k
  rw [get_attempts_map_apply, get_attempts_map_apply]
  cases h1 : latestFold fps k none l1 with
  | none =>
    rcases (latestFold_eq_none fps k l1 none).mp h1 with ⟨-, hall⟩
    exact ((latestFold_eq_none fps k l2 none).mpr
      ⟨rfl, fun B hB => hall B (hperm.mem_iff.mpr hB)⟩).symm
  | some A =>
    rcases latestFold_eq_some fps k l1 none A h1 with hacc | ⟨hA1, hAfp, hg⟩
    · cases hacc
    cases h2 : latestFold fps k none l2 with
    | none =>
      rcases (latestFold_eq_none fps k l2 none).mp h2 with ⟨-, hall⟩
      exact absurd ⟨by rw [hAfp]; exact hg, hAfp⟩
        (hall A (hperm.mem_iff.mp hA1))
    | some A2 =>
      rcases latestFold_eq_some fps k l2 none A2 h2 with hacc | ⟨hA2, hA2fp, -⟩
      · cases hacc
      have hle1 : A2.timestamp ≤ A.timestamp :=
        latestFold_mem_le fps k l1 none A h1 A2 (hperm.mem_iff.mpr hA2) hA2fp
          (by rw [hA2fp]; exact hg)
      have hle2 : A.timestamp ≤ A2.timestamp :=
        latestFold_mem_le fps k l2 none A2 h2 A (hperm.mem_iff.mp hA1) hAfp
          (by rw [hAfp]; exact hg)
      by_cases heq : A = A2
      · rw [heq]
      · exfalso
        have hsym : Symmetric
            (fun a b : KeyLoginAttempt =>
              a.fingerprint = b.fingerprint → a.timestamp ≠ b.timestamp) :=
          fun a b hab hba hts => hab hba.symm hts.symm
        exact List.Pairwise.forall hsym hdist hA1 (hperm.mem_iff.mpr hA2) heq
          (hAfp.trans hA2fp.symm) (le_antisymm hle2 hle1)

/-- Witness for the amended C2 at a concrete input: two attempts with
distinct timestamps, folded in both orders, give the same map. -/
theorem c2_order_independence_witness :
    get_attempts_map [sampleAttempt 1 "f" "u", sampleAttempt 2 "f" "u"]
        [sampleUniverseFp "f"] =
      get_attempts_map [sampleAttempt 2 "f" "u", sampleAttempt 1 "f" "u"]
        [sampleUniverseFp "f"] :=
  c2_order_independence [sampleUniverseFp "f"]
    [sampleAttempt 1 "f" "u", sampleAttempt 2 "f" "u"]
    [sampleAttempt 2 "f" "u", sampleAttempt 1 "f" "u"]
    (by decide) (by decide)

/-- C3: every key present in the map built by get_attempts_map equals the
fingerprint value of some member of the fingerprint universe; an attempt
whose fingerprint matches no universe entry never contributes, whatever its
timestamp. -/
theorem c3_universe_gating (attempts : List KeyLoginAttempt)
    (fps : List PublicKeyFingerprint) (k : String)
    (h : (get_attempts_map attempts fps k).isSome = true) :
    ∃ kf ∈ fps, kf.fingerprint = k := by
  rw [get_attempts_map_apply] at h
  rcases Option.isSome_iff_exists.mp h with ⟨A, hA⟩
  rcases latestFold_eq_some fps k attempts none A hA with hacc | ⟨-, -, hg⟩
  · cases hacc
  · rcases List.find?_isSome.mp hg with ⟨kf, hkf, hbeq⟩
    exact ⟨kf, hkf, by simpa using hbeq⟩

/-- Witness for C3 at a concrete input: the single map key f comes from the
universe entry with fingerprint f. -/
theorem c3_universe_gating_witness :
    ∃ kf ∈ [sampleUniverseFp "f"], kf.fingerprint = "f" :=
  c3_universe_gating [sampleAttempt 3 "f" "u"] [sampleUniverseFp "f"] "f"
    (by decide)

/-- C4: an authorized key whose recomputed fingerprint has no entry in the
attempts map is never returned as a removal candidate, for every threshold
including 0. -/
theorem c4_no_evidence_excluded (f : AuthorizedKey → Option String)
    (now : Int) (keys : List AuthorizedKey) (m : AttemptsMap) (dt : Nat)
    (ak : AuthorizedKey) (fp : String) (hf : f ak = some fp)
    (hm : m fp = none) :
    ak ∉ get_key_candidates_for_removal f now keys m dt := by
  intro hmem
  rcases (get_key_candidates_mem f now keys m dt ak).mp hmem with ⟨-, hs⟩
  simp [isStale, hf, hm] at hs

/-- Witness for C4 at a concrete input: a key mapped to a fingerprint
absent from the attempts map is not a candidate even under threshold 0. -/
theorem c4_no_evidence_excluded_witness :
    sampleKey ∉
      get_key_candidates_for_removal sampleFpOf 86400000 [sampleKey]
        AttemptsMap.empty 0 :=
  c4_no_evidence_excluded sampleFpOf 86400000 [sampleKey] AttemptsMap.empty 0
    sampleKey "SHA256:k1" (by decide) (by decide)

/-- C5 counterexample: at days_threshold 2 to the 63, a u64 value, the cast
days_threshold as i64 wraps to a negative number, so a key whose stored
attempt has zero elapsed days is returned as a candidate although the
elapsed day count is not strictly greater than the threshold; the claimed
biconditional fails at this input. -/
theorem c5_threshold_boundary_cex :
    sampleFpOf sampleKey = some "SHA256:k1" ∧
      sampleMapAt 0 "SHA256:k1" = some (sampleAttempt 0 "SHA256:k1" "user") ∧
      sampleKey ∈
        get_key_candidates_for_removal sampleFpOf 0 [sampleKey]
          (sampleMapAt 0) (2 ^ 63) ∧
      ¬ num_days (0 - (sampleAttempt 0 "SHA256:k1" "user").timestamp) >
          ((2 ^ 63 : Nat) : Int) := by
  refine ⟨by decide, by decide, by decide, by decide⟩

/-- C5 as amended: for days_threshold below 2 to the 63 (where the u64 to
i64 cast is value preserving), an authorized key whose fingerprint has an
entry in the attempts map is a candidate exactly when the truncating
whole-day elapsed time from the stored timestamp to now is strictly
greater than days_threshold; in particular at exactly days_threshold whole
days it is not a candidate and at days_threshold plus one whole days it
is. -/
theorem c5_threshold_boundary (f : AuthorizedKey → Option String)
    (now : Int) (keys : List AuthorizedKey) (m : AttemptsMap) (dt : Nat)
    (ak : AuthorizedKey) (fp : String) (la : KeyLoginAttempt)
    (hdt : dt < 2 ^ 63) (hkeys : ak ∈ keys) (hf : f ak = some fp)
    (hm : m fp = some la) :
    (ak ∈ get_key_candidates_for_removal f now keys m dt ↔
      num_days (now - la.timestamp) > (dt : Int)) ∧
    (num_days (now - la.timestamp) = (dt : Int) →
      ak ∉ get_key_candidates_for_removal f now keys m dt) ∧
    (num_days (now - la.timestamp) = (dt : Int) + 1 →
      ak ∈ get_key_candidates_for_removal f now keys m dt) := by
  have hiff : ak ∈ get_key_candidates_for_removal f now keys m dt ↔
      num_days (now - la.timestamp) > (dt : Int) := by
    rw [get_key_candidates_mem]
    simp [isStale, hf, hm, u64_as_i64_of_lt dt hdt, hkeys]
  refine ⟨hiff, fun he => ?_, fun he => ?_⟩
  · rw [hiff, he]
    omega
  · rw [hiff, he]
    omega

/-- Witness for the amended C5 at a concrete input: threshold 2, an entry
3 whole days old is a candidate. -/
theorem c5_threshold_boundary_witness :
    (sampleKey ∈
        get_key_candidates_for_removal sampleFpOf (3 * 86400) [sampleKey]
          (sampleMapAt 0) 2 ↔
      num_days (3 * 86400 - (sampleAttempt 0 "SHA256:k1" "user").timestamp) >
        ((2 : Nat) : Int)) ∧
    (num_days (3 * 86400 - (sampleAttempt 0 "SHA256:k1" "user").timestamp) =
        ((2 : Nat) : Int) →
      sampleKey ∉
        get_key_candidates_for_removal sampleFpOf (3 * 86400) [sampleKey]
          (sampleMapAt 0) 2) ∧
    (num_days (3 * 86400 - (sampleAttempt 0 "SHA256:k1" "user").timestamp) =
        ((2 : Nat) : Int) + 1 →
      sampleKey ∈
        get_key_candidates_for_removal sampleFpOf (3 * 86400) [sampleKey]
          (sampleMapAt 0) 2) :=
  c5_threshold_boundary sampleFpOf (3 * 86400) [sampleKey] (sampleMapAt 0) 2
    sampleKey "SHA256:k1" (sampleAttempt 0 "SHA256:k1" "user")
    (by decide) (by decide) (by decide) (by decide)

/-- C6 counterexample: threshold 0, the stored attempt lies 3600 seconds in
the past but on the previous calendar day (23:30 of day 0 against 00:30 of
day 1); the claim calls the key stale, yet the classifier does not return
it because fewer than 86400 seconds elapsed. -/
theorem c6_threshold_zero_cex :
    sampleFpOf sampleKey = some "SHA256:k1" ∧
      sampleMapAt 84600 "SHA256:k1" =
        some (sampleAttempt 84600 "SHA256:k1" "user") ∧
      calendarDay (sampleAttempt 84600 "SHA256:k1" "user").timestamp ≠
        calendarDay 88200 ∧
      sampleKey ∉
        get_key_candidates_for_removal sampleFpOf 88200 [sampleKey]
          (sampleMapAt 84600) 0 := by
  refine ⟨by decide, by decide, by decide, by decide⟩

/-- C6 as amended: with days_threshold 0, an authorized key whose
fingerprint has an entry in the attempts map is a candidate exactly when at
least one full day of 86400 seconds has elapsed from the stored timestamp
to now; a use on a previous calendar day but less than 86400 seconds ago is
not stale. -/
theorem c6_threshold_zero (f : AuthorizedKey → Option String) (now : Int)
    (keys : List AuthorizedKey) (m : AttemptsMap) (ak : AuthorizedKey)
    (fp : String) (la : KeyLoginAttempt) (hkeys : ak ∈ keys)
    (hf : f ak = some fp) (hm : m fp = some la) :
    ak ∈ get_key_candidates_for_removal f now keys m 0 ↔
      86400 ≤ now - la.timestamp := by
  rw [get_key_candidates_mem]
  have h0 : u64_as_i64 0 = (0 : Int) := u64_as_i64_of_lt 0 (by norm_num)
  simp only [isStale, hf, hm, h0, hkeys, true_and, decide_eq_true_eq,
    gt_iff_lt]
  exact num_days_pos_iff (now - la.timestamp)

/-- Witness for the amended C6 at a concrete input: threshold 0, an entry
86400 seconds old is a candidate. -/
theorem c6_threshold_zero_witness :
    sampleKey ∈
        get_key_candidates_for_removal sampleFpOf 86400 [sampleKey]
          (sampleMapAt 0) 0 ↔
      86400 ≤ 86400 - (sampleAttempt 0 "SHA256:k1" "user").timestamp :=
  c6_threshold_zero sampleFpOf 86400 [sampleKey] (sampleMapAt 0) sampleKey
    "SHA256:k1" (sampleAttempt 0 "SHA256:k1" "user")
    (by decide) (by decide) (by decide)

/-- C7: for every input, the candidate list returned by
get_key_candidates_for_removal holds no two structurally equal entries:
each entry occurs at most once. -/
theorem c7_no_duplicates (f : AuthorizedKey → Option String) (now : Int)
    (keys : List AuthorizedKey) (m : AttemptsMap) (dt : Nat) :
    (get_key_candidates_for_removal f now keys m dt).Nodup :=
  foldl_candidateStep_nodup f now m (u64_as_i64 dt) keys [] List.nodup_nil

/-- C8: inside the classifier the lookup guarded by contains_key never
yields the missing result, so the fallback branch pushing a key because it
was absent from the auth logs is unreachable: the classifier equals its
re-implementation by a single lookup with that branch removed. -/
theorem c8_missing_branch_unreachable :
    (∀ (m : AttemptsMap) (k : String),
      AttemptsMap.containsKey m k = true →
        ∃ la, AttemptsMap.get m k = some la) ∧
    (∀ (f : AuthorizedKey → Option String) (now : Int)
        (keys : List AuthorizedKey) (m : AttemptsMap) (dt : Nat),
      get_key_candidates_for_removal f now keys m dt =
        get_key_candidates_single_lookup f now keys m dt) := by
  constructor
  · intro m k h
    cases hm : m k with
    | none => simp [AttemptsMap.containsKey, hm] at h
    | some la => exact ⟨la, hm⟩
  · intro f now keys m dt
    have hstep : candidateStep f now m (u64_as_i64 dt) =
        candidateStepSingleLookup f now m (u64_as_i64 dt) :=
      funext fun acc => funext fun a =>
        candidateStep_eq_single_lookup f now m (u64_as_i64 dt) acc a
    rw [get_key_candidates_for_removal, get_key_candidates_single_lookup,
      hstep]

/-- Witness for C8 at a concrete input: the sample map contains its key, so
the get on it yields some value. -/
theorem c8_missing_branch_unreachable_witness :
    ∃ la, AttemptsMap.get (sampleMapAt 0) "SHA256:k1" = some la :=
  c8_missing_branch_unreachable.1 (sampleMapAt 0) "SHA256:k1" (by decide)

/-- C9: a failing fingerprint computation for one entry is non-fatal: the
entry never appears in the candidate list and the remaining entries are
classified exactly as if the failing entry were absent; the classifier is
total and returns a list for every input. -/
theorem c9_parse_failure_nonfatal (f : AuthorizedKey → Option String)
    (now : Int) (m : AttemptsMap) (dt : Nat)
    (l1 l2 : List AuthorizedKey) (bad : AuthorizedKey)
    (hbad : f bad = none) :
    get_key_candidates_for_removal f now (l1 ++ bad :: l2) m dt =
        get_key_candidates_for_removal f now (l1 ++ l2) m dt ∧
      bad ∉ get_key_candidates_for_removal f now (l1 ++ bad :: l2) m dt := by
  constructor
  · have hstep : ∀ acc,
        candidateStep f now m (u64_as_i64 dt) acc bad = acc := by
      intro acc
      simp [candidateStep, hbad]
    unfold get_key_candidates_for_removal
    rw [List.foldl_append, List.foldl_cons, hstep, ← List.foldl_append]
  · intro hmem
    rcases (get_key_candidates_mem f now (l1 ++ bad :: l2) m dt bad).mp hmem
      with ⟨-, hs⟩
    simp [isStale, hbad] at hs

/-- Witness for C9 at a concrete input: a key whose fingerprint fails to
compute is skipped and the other key is still classified. -/
theorem c9_parse_failure_nonfatal_witness :
    get_key_candidates_for_removal
        (fun ak => if ak.id = "id1" then some "SHA256:k1" else none)
        (3 * 86400) [⟨"ssh-rsa", "BBBB", "bad", 1⟩, sampleKey]
        (sampleMapAt 0) 0 =
      get_key_candidates_for_removal
        (fun ak => if ak.id = "id1" then some "SHA256:k1" else none)
        (3 * 86400) [sampleKey] (sampleMapAt 0) 0 ∧
    (⟨"ssh-rsa", "BBBB", "bad", 1⟩ : AuthorizedKey) ∉
      get_key_candidates_for_removal
        (fun ak => if ak.id = "id1" then some "SHA256:k1" else none)
        (3 * 86400) [⟨"ssh-rsa", "BBBB", "bad", 1⟩, sampleKey]
        (sampleMapAt 0) 0 :=
  c9_parse_failure_nonfatal
    (fun ak => if ak.id = "id1" then some "SHA256:k1" else none)
    (3 * 86400) (sampleMapAt 0) 0 [] [sampleKey]
    ⟨"ssh-rsa", "BBBB", "bad", 1⟩ (by decide)

/-- C10: the map built by get_attempts_map is internally consistent: an
entry at fingerprint F stores an attempt record of the input whose
fingerprint field equals F; no record is synthesized or altered. -/
theorem c10_map_consistency (attempts : List KeyLoginAttempt)
    (fps : List PublicKeyFingerprint) (F : String) (A : KeyLoginAttempt)
    (h : get_attempts_map attempts fps F = some A) :
    A.fingerprint = F ∧ A ∈ attempts := by
  rw [get_attempts_map_apply] at h
  rcases latestFold_eq_some fps F attempts none A h with hacc | ⟨hmem, hfp, -⟩
  · cases hacc
  · exact ⟨hfp, hmem⟩

/-- Witness for C10 at a concrete input: the stored record at key f is the
input attempt itself with fingerprint field f. -/
theorem c10_map_consistency_witness :
    (sampleAttempt 3 "f" "u").fingerprint = "f" ∧
      sampleAttempt 3 "f" "u" ∈ [sampleAttempt 3 "f" "u"] :=
  c10_map_consistency [sampleAttempt 3 "f" "u"] [sampleUniverseFp "f"] "f"
    (sampleAttempt 3 "f" "u") (by decide)

end OldKeys
